import Mathlib

/-!
Verification of the EmotionDetector scoring engine from `app.py`.

Modelling conventions:
* A Python string is modelled as a list of unicode scalar values (`List Char`).
* Python floats are modelled as exact rationals: every quantity the engine
  produces is a sum of multiples of 0.25 (intensities 1.0/1.5, negation factor
  -0.5, emoji weight 2.0), all exactly representable.
* `str.lower`, `str.isspace`/`str.split` whitespace and `string.punctuation`
  are modelled over their ASCII behaviour, which covers the whole lexicon.
* The regex `re.sub(r'http\S+|www.\S+', '', text)` is modelled faithfully:
  leftmost match first, alternation tries the `http` branch first, `\S+` is a
  maximal nonempty run of non-whitespace, and `.` matches any character except
  a newline (including a space).
-/

abbrev Str := List Char

inductive Emotion
  | happy
  | sad
  | angry
  | surprise
  | fear
deriving DecidableEq, Fintype

open Emotion

/-- Whitespace characters recognised by Python's `str.split()` / `str.strip()`
(ASCII part). -/
def isWS (c : Char) : Bool :=
  c == ' ' || c == '\t' || c == '\n' || c == '\r' || c == '\x0b' || c == '\x0c'

def nonWS (c : Char) : Bool := !isWS c

/-- `str.lower` on the ASCII range. -/
def pyLower (c : Char) : Char :=
  if 'A' ≤ c ∧ c ≤ 'Z' then Char.ofNat (c.toNat + 32) else c

def lowerStr (s : Str) : Str := s.map pyLower

/-- The 32 characters of Python's `string.punctuation`. -/
def pyPunctuation : Str :=
  ['!', '\"', '#', '$', '%', '&', Char.ofNat 39, '(', ')', '*', '+', ',', '-',
   '.', '/', ':', ';', '<', '=', '>', '?', '@', '[', '\\', ']', '^', '_',
   Char.ofNat 96, Char.ofNat 123, '|', Char.ofNat 125, '~']

def isPunct (c : Char) : Bool := pyPunctuation.contains c

/-- `word.strip(string.punctuation)`: drop leading and trailing punctuation. -/
def stripPunct (w : Str) : Str :=
  ((w.dropWhile isPunct).reverse.dropWhile isPunct).reverse

/-- `self.intensifiers` from `EmotionDetector.__init__`. -/
def intensifiers : List Str :=
  (["very", "really", "extremely", "so", "incredibly", "absolutely",
    "totally", "completely", "utterly", "super", "quite"]).map String.toList

/-- `self.negations` from `EmotionDetector.__init__` (the entry `"n't"` is
written with `\x27` for the apostrophe). -/
def negations : List Str :=
  (["not", "no", "never", "neither", "nobody", "nothing",
    "nowhere", "none", "n\x27t", "hardly", "barely"]).map String.toList

/-- `self.emotion_keywords` from `EmotionDetector.__init__` (duplicates such as
`'wonderful'` and `'unexpected'` are kept exactly as in the source). -/
def emotion_keywords : Emotion → List Str
  | happy =>
    (["happy", "joy", "excited", "great", "awesome", "wonderful", "fantastic",
      "love", "excellent", "amazing", "perfect", "good", "best", "beautiful",
      "glad", "delighted", "pleased", "cheerful", "blessed", "grateful",
      "wonderful", "brilliant", "fabulous", "yay", "woohoo", "celebrate"]).map String.toList
  | sad =>
    (["sad", "unhappy", "depressed", "miserable", "disappointed", "hurt",
      "lonely", "down", "cry", "tears", "upset", "heartbroken", "awful",
      "terrible", "bad", "worst", "horrible", "unfortunate", "regret",
      "sorry", "miss", "grief", "sorrow", "despair", "gloomy"]).map String.toList
  | angry =>
    (["angry", "mad", "furious", "rage", "hate", "annoyed", "irritated",
      "frustrated", "outraged", "pissed", "disgusted", "stupid", "idiot",
      "damn", "hell", "fuck", "shit", "annoying", "pathetic", "ridiculous",
      "unacceptable", "sick", "fed up", "infuriated", "livid"]).map String.toList
  | surprise =>
    (["wow", "omg", "shocked", "surprised", "unexpected", "amazing",
      "unbelievable", "incredible", "astonished", "stunned", "whoa",
      "unexpected", "sudden", "shock", "startled", "speechless",
      "mind-blowing", "wtf", "remarkable", "extraordinary"]).map String.toList
  | fear =>
    (["scared", "afraid", "fear", "worried", "anxious", "nervous",
      "terrified", "panic", "frightened", "concern", "threat", "danger",
      "risk", "scary", "horror", "dread", "alarmed", "paranoid",
      "uneasy", "tense", "stress", "nightmare", "phobia"]).map String.toList

/-- `self.emotion_emojis` from `EmotionDetector.__init__`.  Each entry is the
exact sequence of unicode scalars of the Python string literal (some glyphs,
e.g. the red heart, are two scalars: base + variation selector). -/
def emotion_emojis : Emotion → List Str
  | happy =>
    (["😊", "😀", "😃", "😄", "😁", "🙂", "😍", "🥰", "😘", "❤️", "💕", "🎉",
      "👍", "✨"]).map String.toList
  | sad =>
    (["😢", "😭", "😞", "😔", "😟", "🙁", "☹️", "💔", "😥", "😪"]).map String.toList
  | angry =>
    (["😠", "😡", "🤬", "😤", "💢", "👿", "😾"]).map String.toList
  | surprise =>
    (["😲", "😮", "😯", "😳", "🤯", "‼️", "⁉️"]).map String.toList
  | fear =>
    (["😨", "😰", "😱", "🙀", "😧", "😦"]).map String.toList

/-- One attempt of the regex `http\S+|www.\S+` anchored at the start of `s`.
Returns the remainder after the match when it succeeds.  The `http` branch is
`"http"` followed by a maximal nonempty run of non-whitespace; the `www.`
branch is `"www"`, then any single character except `'\n'` (the unescaped dot),
then a maximal nonempty run of non-whitespace. -/
def urlMatch (s : Str) : Option Str :=
  if s.take 4 = ['h', 't', 't', 'p'] ∧ (s.drop 4).takeWhile nonWS ≠ [] then
    some ((s.drop 4).dropWhile nonWS)
  else if s.take 3 = ['w', 'w', 'w'] ∧ s[3]? ≠ some '\n' ∧
      (s.drop 4).takeWhile nonWS ≠ [] then
    some ((s.drop 4).dropWhile nonWS)
  else none

/-- Scanner for `re.sub(pattern, '', text)`: at each position try the pattern;
on a match delete it and continue after it, otherwise keep one character and
move on.  Fuel-based so that the function is structurally recursive; the fuel
`s.length` always suffices because every step consumes at least one character. -/
def removeURLsAux : ℕ → Str → Str
  | 0, s => s
  | fuel + 1, s =>
    match urlMatch s with
    | some rest => removeURLsAux fuel rest
    | none =>
      match s with
      | [] => []
      | c :: t => c :: removeURLsAux fuel t

def removeURLs (s : Str) : Str := removeURLsAux s.length s

/-- `EmotionDetector.preprocess_text`: lowercase, then delete URL-like
sequences. -/
def preprocess_text (t : Str) : Str := removeURLs (lowerStr t)

/-- `str.count(pat)`: non-overlapping occurrences, scanning left to right
(fuel-based for structural recursion; `s.length` fuel always suffices). -/
def countAux : ℕ → Str → Str → ℕ
  | 0, _, _ => 0
  | fuel + 1, s, pat =>
    match s with
    | [] => 0
    | c :: t =>
      if pat ≠ [] ∧ pat <+: (c :: t) then
        countAux fuel ((c :: t).drop pat.length) pat + 1
      else
        countAux fuel t pat

def countOcc (s pat : Str) : ℕ := countAux s.length s pat

/-- `EmotionDetector.detect_emojis`: per emotion, the total number of
occurrences of that emotion's emoji glyphs in the (raw) text. -/
def detect_emojis (text : Str) (e : Emotion) : ℕ :=
  ((emotion_emojis e).map (fun em => countOcc text em)).sum

/-- `str.split()` with no separator: split on runs of whitespace, discarding
empty pieces.  `cur` accumulates the current word in reverse. -/
def splitAcc : Str → Str → List Str
  | cur, [] => if cur = [] then [] else [cur.reverse]
  | cur, c :: t =>
    if isWS c then
      (if cur = [] then splitAcc [] t else cur.reverse :: splitAcc [] t)
    else
      splitAcc (c :: cur) t

def splitWS (s : Str) : List Str := splitAcc [] s

/-- Contribution of one token `w` to one emotion's accumulator, given the raw
previous token (`none` at index 0).  Mirrors the loop body of
`calculate_emotion_scores`: clean the word, check negation and intensifier on
the single preceding raw token, then add `intensity` (times `-0.5` when
negated) if the cleaned word is in the emotion's keyword list. -/
def tokContrib (kw : List Str) (prev : Option Str) (w : Str) : ℚ :=
  let word_clean := stripPunct w
  let neg : Bool := match prev with
    | some p => decide (p ∈ negations)
    | none => false
  let intensity : ℚ := match prev with
    | some p => if p ∈ intensifiers then 1.5 else 1.0
    | none => 1.0
  if word_clean ∈ kw then (if neg then intensity * (-0.5) else intensity) else 0

/-- Keyword-pass score of a token list for one emotion, threading the previous
raw token. -/
def wordScoreFrom (kw : List Str) : Option Str → List Str → ℚ
  | _, [] => 0
  | prev, w :: ws => tokContrib kw prev w + wordScoreFrom kw (some w) ws

def wordScore (kw : List Str) (ws : List Str) : ℚ := wordScoreFrom kw none ws

/-- The per-call accumulator dictionary `emotion_scores` (five non-neutral
emotions, insertion order happy, sad, angry, surprise, fear). -/
structure Scores where
  happy : ℚ
  sad : ℚ
  angry : ℚ
  surprise : ℚ
  fear : ℚ
deriving DecidableEq

def Scores.get (s : Scores) : Emotion → ℚ
  | Emotion.happy => s.happy
  | Emotion.sad => s.sad
  | Emotion.angry => s.angry
  | Emotion.surprise => s.surprise
  | Emotion.fear => s.fear

/-- `EmotionDetector.calculate_emotion_scores`, parametrised by the keyword
table (the real table is `emotion_keywords`): emoji counts on the original
text weighted by 2.0, plus the keyword pass over the split of the preprocessed
text. -/
def calculate_emotion_scores_kw (kw : Emotion → List Str) (text : Str) : Scores :=
  let ws := splitWS (preprocess_text text)
  let f : Emotion → ℚ := fun e =>
    (detect_emojis text e : ℚ) * 2.0 + wordScore (kw e) ws
  ⟨f happy, f sad, f angry, f surprise, f fear⟩

def calculate_emotion_scores : Str → Scores :=
  calculate_emotion_scores_kw emotion_keywords

/-- The keyword table with the unreachable multi-word angry entry `'fed up'`
removed (used to state claim C10). -/
def emotion_keywords_nofedup (e : Emotion) : List Str :=
  if e = angry then (emotion_keywords angry).erase "fed up".toList
  else emotion_keywords e

/-- The dictionary keys in insertion order (`emotion_scores.values()` order). -/
def emotionList : List Emotion := [happy, sad, angry, surprise, fear]

def labelOf : Emotion → String
  | happy => "happy"
  | sad => "sad"
  | angry => "angry"
  | surprise => "surprise"
  | fear => "fear"

/-- Position of an emotion in the dictionary insertion order. -/
def emotionIdx : Emotion → ℕ
  | happy => 0
  | sad => 1
  | angry => 2
  | surprise => 3
  | fear => 4

/-- `max(emotion_scores, key=emotion_scores.get)`: iterate the keys in
insertion order keeping the first strictly greater value, so ties resolve to
the earliest key. -/
def maxEmotion (s : Scores) : Emotion :=
  [sad, angry, surprise, fear].foldl
    (fun best e => if s.get best < s.get e then e else best) happy

/-- `EmotionDetector.predict_emotion`.  `none` models the literal empty dict
`{}` returned on empty/whitespace input; `some sc` models the full five-key
score dict. -/
def predict_emotion (text : Str) : String × Option Scores :=
  if text.all isWS then ("neutral", none)
  else
    let sc := calculate_emotion_scores text
    if emotionList.all (fun e => decide (sc.get e = 0)) then ("neutral", some sc)
    else if sc.get (maxEmotion sc) < 0.5 then ("neutral", some sc)
    else (labelOf (maxEmotion sc), some sc)

/-- Python `round(q, 2)` modelled over exact rationals with round-half-up.
(CPython rounds half-to-even on floats; the difference is irrelevant to the
theorems below, which never evaluate a tie.) -/
def round2 (q : ℚ) : ℚ := (round (q * 100) : ℚ) / 100

/-- `collections.Counter` built by counting in first-encounter order. -/
def counterAdd : List (String × ℕ) → String → List (String × ℕ)
  | [], x => [(x, 1)]
  | (y, n) :: r, x =>
    if y = x then (y, n + 1) :: r else (y, n) :: counterAdd r x

def counterList (xs : List String) : List (String × ℕ) :=
  xs.foldl counterAdd []

/-- `Counter.most_common(1)[0][0]`: the first key with maximal count (CPython's
sort is stable, so ties keep first-encounter order). -/
def mostCommon1 (l : List (String × ℕ)) : Option String :=
  (l.foldl
    (fun best p =>
      match best with
      | none => some p
      | some b => if b.2 < p.2 then some p else some b)
    none).map Prod.fst

structure BatchStats where
  total_texts : ℕ
  emotion_distribution : List (String × ℕ × ℚ)
  dominant_emotion : String
deriving DecidableEq

/-- The `emotion_distribution` comprehension: `none` models a
`ZeroDivisionError` from `count / total` (only reachable when the counter is
nonempty while `total = 0`, which cannot happen). -/
def distribution (total : ℕ) : List (String × ℕ) → Option (List (String × ℕ × ℚ))
  | [] => some []
  | (e, c) :: r =>
    if total = 0 then none
    else Option.map (fun d => (e, c, round2 ((c : ℚ) / (total : ℚ) * 100)) :: d)
      (distribution total r)

/-- `EmotionDetector.get_emotion_statistics`: classify every text, count the
labels, report total, per-label count and percentage, and the most frequent
label (`'neutral'` when there are no texts). -/
def get_emotion_statistics (texts : List Str) : Option BatchStats :=
  let emotions := texts.map (fun t => (predict_emotion t).1)
  let counts := counterList emotions
  match distribution texts.length counts with
  | none => none
  | some d =>
    some ⟨texts.length, d,
      if emotions.isEmpty then "neutral" else (mostCommon1 counts).getD "neutral"⟩

/-- True when no position of `u` starts a regex match, so that `re.sub`
leaves `u` unchanged. -/
def urlInert : Str → Bool
  | [] => true
  | c :: t => (urlMatch (c :: t)).isNone && urlInert t

/-- The raw token preceding the next token to be processed (`words[i - 1]`),
threaded exactly as `wordScoreFrom` threads it. -/
def lastPrev : Option Str → List Str → Option Str
  | prev, [] => prev
  | _, w :: ws => lastPrev (some w) ws

/-! ### Basic facts about the decision rule -/

theorem calc_get (kw : Emotion → List Str) (text : Str) (e : Emotion) :
    (calculate_emotion_scores_kw kw text).get e =
      (detect_emojis text e : ℚ) * 2.0 +
        wordScore (kw e) (splitWS (preprocess_text text)) := by
  cases e <;> rfl

theorem mem_emotionList (e : Emotion) : e ∈ emotionList := by
  cases e <;> simp [emotionList]

theorem allzero_bool (sc : Scores) (h : ∀ e, sc.get e = 0) :
    (emotionList.all fun e => decide (sc.get e = 0)) = true := by
  simp [List.all_eq_true, h]

theorem notallzero_bool (sc : Scores) (e₀ : Emotion) (h : sc.get e₀ ≠ 0) :
    ¬ (emotionList.all fun e => decide (sc.get e = 0)) = true := by
  intro hall
  rw [List.all_eq_true] at hall
  exact h (of_decide_eq_true (hall e₀ (mem_emotionList e₀)))

theorem step_lt (s : Scores) (t : ℚ) (a b : Emotion)
    (ha : s.get a < t) (hb : s.get b < t) :
    s.get (if s.get a < s.get b then b else a) < t := by
  split_ifs <;> assumption

/-- `maxEmotion` returns `e` whenever `e` is a maximum and every emotion
strictly earlier in insertion order is strictly below it (Python's `max`
keeps the first maximal key). -/
theorem maxEmotion_spec (s : Scores) (e : Emotion)
    (hle : ∀ x, s.get x ≤ s.get e)
    (hlt : ∀ x, emotionIdx x < emotionIdx e → s.get x < s.get e) :
    maxEmotion s = e := by
  cases e with
  | happy =>
    simp only [maxEmotion, List.foldl]
    rw [if_neg (not_lt.mpr (hle sad)), if_neg (not_lt.mpr (hle angry)),
      if_neg (not_lt.mpr (hle surprise)), if_neg (not_lt.mpr (hle fear))]
  | sad =>
    simp only [maxEmotion, List.foldl]
    rw [if_pos (hlt happy (by decide)), if_neg (not_lt.mpr (hle angry)),
      if_neg (not_lt.mpr (hle surprise)), if_neg (not_lt.mpr (hle fear))]
  | angry =>
    simp only [maxEmotion, List.foldl]
    rw [if_pos (step_lt s _ happy sad (hlt happy (by decide)) (hlt sad (by decide))),
      if_neg (not_lt.mpr (hle surprise)), if_neg (not_lt.mpr (hle fear))]
  | surprise =>
    simp only [maxEmotion, List.foldl]
    rw [if_pos (step_lt s _ _ angry
        (step_lt s _ happy sad (hlt happy (by decide)) (hlt sad (by decide)))
        (hlt angry (by decide))),
      if_neg (not_lt.mpr (hle fear))]
  | fear =>
    simp only [maxEmotion, List.foldl]
    rw [if_pos (step_lt s _ _ surprise
        (step_lt s _ _ angry
          (step_lt s _ happy sad (hlt happy (by decide)) (hlt sad (by decide)))
          (hlt angry (by decide)))
        (hlt surprise (by decide)))]

theorem half_pos_q : (0 : ℚ) < 0.5 := by norm_num

/-- C1: for every non-empty, non-whitespace-only input text, `predict_emotion`
follows the decision rule: all accumulators exactly 0.0 gives (neutral, the
zero vector); otherwise a maximum strictly below 0.5 gives (neutral, the full
vector); and an emotion scoring at least 0.5 and strictly above every other
emotion is returned as the label, with the full vector. -/
theorem C1_decision_rule (text : Str) (h : ¬ text.all isWS = true) :
    ((∀ e, (calculate_emotion_scores text).get e = 0) →
      predict_emotion text = ("neutral", some (calculate_emotion_scores text))) ∧
    ((¬ ∀ e, (calculate_emotion_scores text).get e = 0) →
      (∀ e, (calculate_emotion_scores text).get e < 0.5) →
      predict_emotion text = ("neutral", some (calculate_emotion_scores text))) ∧
    (∀ e, 0.5 ≤ (calculate_emotion_scores text).get e →
      (∀ x, x ≠ e →
        (calculate_emotion_scores text).get x < (calculate_emotion_scores text).get e) →
      predict_emotion text = (labelOf e, some (calculate_emotion_scores text))) := by
  refine ⟨?_, ?_, ?_⟩
  · intro hz
    simp only [predict_emotion]
    rw [if_neg h, if_pos (allzero_bool _ hz)]
  · intro hnz hlow
    obtain ⟨e₀, he₀⟩ := not_forall.mp hnz
    simp only [predict_emotion]
    rw [if_neg h, if_neg (notallzero_bool _ e₀ he₀), if_pos (hlow _)]
  · intro e hge hdom
    have hmax : maxEmotion (calculate_emotion_scores text) = e := by
      refine maxEmotion_spec _ e (fun x => ?_) (fun x hx => ?_)
      · by_cases hxe : x = e
        · exact hxe ▸ le_refl _
        · exact (hdom x hxe).le
      · have hxe : x ≠ e := fun hc => by rw [hc] at hx; exact lt_irrefl _ hx
        exact hdom x hxe
    have hne : (calculate_emotion_scores text).get e ≠ 0 :=
      ne_of_gt (lt_of_lt_of_le half_pos_q hge)
    simp only [predict_emotion]
    rw [if_neg h, if_neg (notallzero_bool _ e hne), if_neg (by rw [hmax]; exact not_lt.mpr hge),
      hmax]

theorem C1_decision_rule_witness :
    predict_emotion "happy".toList =
      (labelOf Emotion.happy, some (calculate_emotion_scores "happy".toList)) :=
  (C1_decision_rule "happy".toList (by decide)).2.2 Emotion.happy
    (by with_unfolding_all decide) (by with_unfolding_all decide)

/-- C4: when two or more emotions are tied at the maximum (at least 0.5),
`predict_emotion` returns the first of the tied emotions in the fixed order
happy, sad, angry, surprise, fear: it returns `e` whenever `e` is maximal, at
least 0.5, and every strictly earlier emotion is strictly below `e`; in
particular a happy/sad tie resolves to happy. -/
theorem C4_tie_break (text : Str) (e : Emotion) (h : ¬ text.all isWS = true)
    (hge : 0.5 ≤ (calculate_emotion_scores text).get e)
    (hle : ∀ x, (calculate_emotion_scores text).get x ≤ (calculate_emotion_scores text).get e)
    (hlt : ∀ x, emotionIdx x < emotionIdx e →
      (calculate_emotion_scores text).get x < (calculate_emotion_scores text).get e) :
    predict_emotion text = (labelOf e, some (calculate_emotion_scores text)) := by
  have hmax : maxEmotion (calculate_emotion_scores text) = e := maxEmotion_spec _ e hle hlt
  have hne : (calculate_emotion_scores text).get e ≠ 0 :=
    ne_of_gt (lt_of_lt_of_le half_pos_q hge)
  simp only [predict_emotion]
  rw [if_neg h, if_neg (notallzero_bool _ e hne), if_neg (by rw [hmax]; exact not_lt.mpr hge),
    hmax]

theorem C4_tie_break_witness :
    predict_emotion "happy sad".toList =
      (labelOf Emotion.happy, some (calculate_emotion_scores "happy sad".toList)) :=
  C4_tie_break "happy sad".toList Emotion.happy (by decide)
    (by with_unfolding_all decide) (by with_unfolding_all decide)
    (by with_unfolding_all decide)

/-- C3: a keyword preceded by a negation word contributes `intensity * -0.5`;
for `"not happy"` the happy accumulator is exactly `-0.5` and the label is
neutral; and every input whose accumulators are all at most 0 is labelled
neutral (a non-positive score is never returned as the winning label). -/
theorem C3_negation (_ : Unit) :
    (∀ (kw : List Str) (p w : Str), p ∈ negations →
      tokContrib kw (some p) w =
        if stripPunct w ∈ kw then
          (if p ∈ intensifiers then (1.5 : ℚ) else 1.0) * (-0.5)
        else 0) ∧
    calculate_emotion_scores "not happy".toList = ⟨-0.5, 0, 0, 0, 0⟩ ∧
    predict_emotion "not happy".toList = ("neutral", some ⟨-0.5, 0, 0, 0, 0⟩) ∧
    (∀ text, (∀ e, (calculate_emotion_scores text).get e ≤ 0) →
      (predict_emotion text).1 = "neutral") := by
  refine ⟨?_, by with_unfolding_all decide, by with_unfolding_all decide, ?_⟩
  · intro kw p w hp
    simp only [tokContrib, decide_eq_true hp]
    split_ifs <;> rfl
  · intro text hle
    by_cases hws : text.all isWS = true
    · simp [predict_emotion, hws]
    · by_cases hz : ∀ e, (calculate_emotion_scores text).get e = 0
      · simp only [predict_emotion]
        rw [if_neg hws, if_pos (allzero_bool _ hz)]
      · obtain ⟨e₀, he₀⟩ := not_forall.mp hz
        have hmaxlow : (calculate_emotion_scores text).get
            (maxEmotion (calculate_emotion_scores text)) < 0.5 :=
          lt_of_le_of_lt (hle _) half_pos_q
        simp only [predict_emotion]
        rw [if_neg hws, if_neg (notallzero_bool _ e₀ he₀), if_pos hmaxlow]

theorem C3_negation_witness :
    tokContrib (emotion_keywords Emotion.happy) (some "not".toList) "happy".toList =
      (if stripPunct "happy".toList ∈ emotion_keywords Emotion.happy then
        (if "not".toList ∈ intensifiers then (1.5 : ℚ) else 1.0) * (-0.5)
      else 0) ∧
    (predict_emotion "not happy".toList).1 = "neutral" :=
  ⟨(C3_negation ()).1 (emotion_keywords Emotion.happy) "not".toList "happy".toList (by decide),
   (C3_negation ()).2.2.2 "not happy".toList (by with_unfolding_all decide)⟩

/-- C5: a keyword preceded by an intensifier contributes 1.5 instead of 1.0:
the contribution of a keyword token after an intensifier is
`if matched then 1.5 else 0`, `predict_emotion "really happy"` yields a happy
score of exactly 1.5, and `predict_emotion "happy"` yields exactly 1.0. -/
theorem C5_intensifier (_ : Unit) :
    (∀ (kw : List Str) (p w : Str), p ∈ intensifiers →
      tokContrib kw (some p) w = if stripPunct w ∈ kw then (1.5 : ℚ) else 0) ∧
    predict_emotion "really happy".toList = ("happy", some ⟨1.5, 0, 0, 0, 0⟩) ∧
    predict_emotion "happy".toList = ("happy", some ⟨1, 0, 0, 0, 0⟩) := by
  refine ⟨?_, by with_unfolding_all decide, by with_unfolding_all decide⟩
  intro kw p w hp
  have hnp : ¬ p ∈ negations := by
    have hd : ∀ q ∈ intensifiers, q ∉ negations := by decide
    exact hd p hp
  simp only [tokContrib, decide_eq_false hnp, if_pos hp]
  rw [if_neg Bool.false_ne_true]

theorem C5_intensifier_witness :
    tokContrib (emotion_keywords Emotion.happy) (some "really".toList) "happy".toList =
      (if stripPunct "happy".toList ∈ emotion_keywords Emotion.happy then (1.5 : ℚ) else 0) :=
  (C5_intensifier ()).1 (emotion_keywords Emotion.happy) "really".toList "happy".toList
    (by decide)

/-- C6: the emoji pass scans the original text (not the preprocessed one),
adding `2.0` per occurrence with no negation or intensification: every
accumulator decomposes as `2.0 * emoji count on the raw text + keyword score
on the preprocessed tokens`; a text of two happy emoji scores exactly 4.0 with
label happy; and a happy emoji preceded by "not" still contributes exactly
+2.0. -/
theorem C6_emoji_pass (_ : Unit) :
    (∀ (text : Str) (e : Emotion),
      (calculate_emotion_scores text).get e =
        (detect_emojis text e : ℚ) * 2.0 +
          wordScore (emotion_keywords e) (splitWS (preprocess_text text))) ∧
    predict_emotion "😊😊".toList = ("happy", some ⟨4, 0, 0, 0, 0⟩) ∧
    (calculate_emotion_scores "not 😊".toList).get Emotion.happy = 2 := by
  refine ⟨?_, by with_unfolding_all decide, by with_unfolding_all decide⟩
  intro text e
  exact calc_get emotion_keywords text e

/-- C7: every input that is empty or consists only of whitespace characters is
classified as (neutral, empty score vector) by the short-circuit, with no
emoji or token scoring (the returned vector is the literal empty dict). -/
theorem C7_whitespace_shortcircuit (text : Str) (h : text.all isWS = true) :
    predict_emotion text = ("neutral", none) := by
  simp [predict_emotion, h]

theorem C7_whitespace_shortcircuit_witness :
    predict_emotion "  ".toList = ("neutral", none) ∧ predict_emotion [] = ("neutral", none) :=
  ⟨C7_whitespace_shortcircuit "  ".toList (by decide),
   C7_whitespace_shortcircuit [] (by decide)⟩

/-- C8: `get_emotion_statistics` on an empty list of texts does not attempt
the division (the result is `some`, not the `none` that models a
`ZeroDivisionError`) and returns total 0, empty distribution and dominant
label neutral. -/
theorem C8_empty_batch :
    get_emotion_statistics [] = some ⟨0, [], "neutral"⟩ := rfl

/-! ### URL stripping (C2) -/

/-- C2 counterexample: `"http😊"` is a single maximal non-whitespace token
beginning with `http` (it is removed entirely from the token stream, third
conjunct), yet the emoji inside it is counted by the emoji pass, giving a
happy score of 2.0 and label happy instead of the zero contribution the claim
asserts. -/
theorem C2_url_counterexample :
    calculate_emotion_scores "http😊".toList = ⟨2, 0, 0, 0, 0⟩ ∧
    predict_emotion "http😊".toList = ("happy", some ⟨2, 0, 0, 0, 0⟩) ∧
    splitWS (preprocess_text "http😊".toList) = [] :=
  ⟨by with_unfolding_all decide, by with_unfolding_all decide, by decide⟩

/-- C2 (amended): normalization deletes each leftmost regex match of
`http\S+` / `www.\S+` from the lowercased text (by occurrence, not by whole
token: `"xhttp😊y"` keeps its prefix `"x"`), keyword matching runs only on the
stripped text, but emoji matching scans the original text, so emoji
occurrences inside URL-like sequences ARE counted. -/
theorem C2_amended_url_stripping :
    preprocess_text "lol http😊x bye".toList = "lol  bye".toList ∧
    preprocess_text "xhttp😊y".toList = "x".toList ∧
    (calculate_emotion_scores "http😊".toList).get Emotion.happy = 2 ∧
    (∀ (text : Str) (e : Emotion),
      (calculate_emotion_scores text).get e =
        (detect_emojis text e : ℚ) * 2.0 +
          wordScore (emotion_keywords e) (splitWS (removeURLs (lowerStr text)))) :=
  ⟨by decide, by decide, by with_unfolding_all decide,
   fun text e => calc_get emotion_keywords text e⟩

/-! ### The unreachable `'fed up'` entry (C10) -/

theorem mem_of_mem_dropWhile {p : Char → Bool} :
    ∀ (l : Str) (c : Char), c ∈ l.dropWhile p → c ∈ l := by
  intro l
  induction l with
  | nil => simp
  | cons a t ih =>
    intro c hc
    by_cases h : p a = true
    · simp only [List.dropWhile, h] at hc
      exact List.mem_cons_of_mem _ (ih c hc)
    · rw [Bool.not_eq_true] at h
      simp only [List.dropWhile, h] at hc
      exact hc

theorem mem_of_mem_stripPunct (w : Str) (c : Char) (hc : c ∈ stripPunct w) : c ∈ w := by
  simp only [stripPunct] at hc
  rw [List.mem_reverse] at hc
  have h1 := mem_of_mem_dropWhile _ _ hc
  rw [List.mem_reverse] at h1
  exact mem_of_mem_dropWhile _ _ h1

theorem splitAcc_mem_nonWS :
    ∀ (s cur : Str), (∀ c ∈ cur, nonWS c = true) →
      ∀ w ∈ splitAcc cur s, ∀ c ∈ w, nonWS c = true := by
  intro s
  induction s with
  | nil =>
    intro cur hcur w hw c hc
    by_cases h : cur = []
    · simp [splitAcc, h] at hw
    · simp only [splitAcc, if_neg h, List.mem_singleton] at hw
      subst hw
      exact hcur c (List.mem_reverse.mp hc)
  | cons a t ih =>
    intro cur hcur w hw c hc
    by_cases ha : isWS a = true
    · by_cases h : cur = []
      · simp only [splitAcc, ha, if_true, if_pos h] at hw
        exact ih [] (by simp) w hw c hc
      · simp only [splitAcc, ha, if_true, if_neg h, List.mem_cons] at hw
        rcases hw with hw | hw
        · subst hw
          exact hcur c (List.mem_reverse.mp hc)
        · exact ih [] (by simp) w hw c hc
    · rw [Bool.not_eq_true] at ha
      simp only [splitAcc, ha, if_false] at hw
      refine ih (a :: cur) ?_ w hw c hc
      intro x hx
      rcases List.mem_cons.mp hx with hx | hx
      · subst hx; simp [nonWS, ha]
      · exact hcur x hx

theorem token_ne_fedup (w : Str) (hw : ∀ c ∈ w, nonWS c = true) :
    stripPunct w ≠ "fed up".toList := by
  intro h
  have hsp : ' ' ∈ stripPunct w := by rw [h]; decide
  have hmem := mem_of_mem_stripPunct w ' ' hsp
  have := hw ' ' hmem
  simp [nonWS, isWS] at this

theorem wordScoreFrom_erase (b : Str) (kw : List Str) :
    ∀ (ws : List Str) (prev : Option Str), (∀ w ∈ ws, stripPunct w ≠ b) →
      wordScoreFrom (kw.erase b) prev ws = wordScoreFrom kw prev ws := by
  intro ws
  induction ws with
  | nil => intro prev _; rfl
  | cons w t ih =>
    intro prev h
    simp only [wordScoreFrom]
    have hne : stripPunct w ≠ b := h w (List.mem_cons_self w t)
    have hmem : stripPunct w ∈ kw.erase b ↔ stripPunct w ∈ kw :=
      List.mem_erase_of_ne hne
    have hcontrib : tokContrib (kw.erase b) prev w = tokContrib kw prev w := by
      simp only [tokContrib, hmem]
    rw [hcontrib, ih (some w) (fun x hx => h x (List.mem_cons_of_mem w hx))]

/-- C10: the multi-word angry entry `'fed up'` is unreachable: no cleaned
token of any input can equal `"fed up"` (tokens never contain whitespace), so
removing the entry from the keyword table never changes any accumulator. -/
theorem C10_fedup_unreachable (text : Str) :
    (∀ w ∈ splitWS (preprocess_text text), stripPunct w ≠ "fed up".toList) ∧
    (∀ e, (calculate_emotion_scores_kw emotion_keywords_nofedup text).get e =
      (calculate_emotion_scores text).get e) := by
  have htok : ∀ w ∈ splitWS (preprocess_text text), stripPunct w ≠ "fed up".toList := by
    intro w hw
    exact token_ne_fedup w (splitAcc_mem_nonWS _ [] (by simp) w hw)
  refine ⟨htok, ?_⟩
  intro e
  rw [calculate_emotion_scores, calc_get, calc_get]
  cases e with
  | angry =>
    have h1 : emotion_keywords_nofedup angry = (emotion_keywords angry).erase "fed up".toList := rfl
    rw [h1]
    simp only [wordScore]
    rw [wordScoreFrom_erase "fed up".toList (emotion_keywords angry) _ none htok]
  | happy => rfl
  | sad => rfl
  | surprise => rfl
  | fear => rfl

theorem C10_fedup_unreachable_witness :
    stripPunct "fed".toList ≠ "fed up".toList ∧
    (calculate_emotion_scores_kw emotion_keywords_nofedup "so fed up".toList).get Emotion.angry =
      (calculate_emotion_scores "so fed up".toList).get Emotion.angry :=
  ⟨(C10_fedup_unreachable "fed up".toList).1 "fed".toList (by decide),
   (C10_fedup_unreachable "so fed up".toList).2 Emotion.angry⟩

/-! ### Appending a token: behaviour of the URL regex (for C9) -/

theorem removeURLsAux_nil (f : ℕ) : removeURLsAux f [] = [] := by
  cases f with
  | zero => rfl
  | succ g => rfl

theorem five_le_of_takeWhile {s : Str} (htw : (s.drop 4).takeWhile nonWS ≠ []) :
    5 ≤ s.length := by
  have h4 : s.drop 4 ≠ [] := by
    intro hnil
    rw [hnil] at htw
    simp at htw
  have h3 : (s.drop 4).length = s.length - 4 := by simp
  have h5 := List.length_pos.mpr h4
  omega

theorem urlMatch_core_facts {s r : Str} (htw : (s.drop 4).takeWhile nonWS ≠ [])
    (hr : (s.drop 4).dropWhile nonWS = r) : r.length + 5 ≤ s.length ∧ r <:+ s := by
  constructor
  · have h0 : ((s.drop 4).takeWhile nonWS ++ (s.drop 4).dropWhile nonWS).length
        = (s.drop 4).length := by rw [List.takeWhile_append_dropWhile]
    rw [List.length_append] at h0
    have h1 : 1 ≤ ((s.drop 4).takeWhile nonWS).length := List.length_pos.mpr htw
    have h3 : (s.drop 4).length = s.length - 4 := by simp
    have h5 := five_le_of_takeWhile htw
    have h6 : r.length = ((s.drop 4).dropWhile nonWS).length := by rw [hr]
    omega
  · rw [← hr]
    exact (List.dropWhile_suffix nonWS).trans (List.drop_suffix 4 s)

theorem urlMatch_some_facts {s r : Str} (h : urlMatch s = some r) :
    r.length + 5 ≤ s.length ∧ r <:+ s := by
  unfold urlMatch at h
  split_ifs at h with h1 h2
  · exact urlMatch_core_facts h1.2 (Option.some.inj h)
  · exact urlMatch_core_facts h2.2.2 (Option.some.inj h)

theorem removeURLsAux_fuel :
    ∀ (n : ℕ) (s : Str) (f₁ f₂ : ℕ), s.length ≤ n → s.length ≤ f₁ → s.length ≤ f₂ →
      removeURLsAux f₁ s = removeURLsAux f₂ s := by
  intro n
  induction n with
  | zero =>
    intro s f₁ f₂ hn _ _
    have hs : s = [] := List.length_eq_zero.mp (Nat.le_zero.mp hn)
    subst hs
    rw [removeURLsAux_nil, removeURLsAux_nil]
  | succ n ih =>
    intro s f₁ f₂ hn h1 h2
    cases s with
    | nil => rw [removeURLsAux_nil, removeURLsAux_nil]
    | cons c t =>
      have hn' : t.length + 1 ≤ n + 1 := by simpa using hn
      have h1' : t.length + 1 ≤ f₁ := by simpa using h1
      have h2' : t.length + 1 ≤ f₂ := by simpa using h2
      obtain ⟨g₁, rfl⟩ : ∃ g, f₁ = g + 1 := ⟨f₁ - 1, by omega⟩
      obtain ⟨g₂, rfl⟩ : ∃ g, f₂ = g + 1 := ⟨f₂ - 1, by omega⟩
      cases hm : urlMatch (c :: t) with
      | some r =>
        simp only [removeURLsAux, hm]
        obtain ⟨hlen, -⟩ := urlMatch_some_facts hm
        have hlen' : r.length + 5 ≤ t.length + 1 := by simpa using hlen
        exact ih r g₁ g₂ (by omega) (by omega) (by omega)
      | none =>
        simp only [removeURLsAux, hm]
        congr 1
        exact ih t g₁ g₂ (by omega) (by omega) (by omega)

theorem removeURLsAux_inert :
    ∀ (u : Str), urlInert u = true → ∀ (f : ℕ), u.length ≤ f → removeURLsAux f u = u := by
  intro u
  induction u with
  | nil => intro _ f _; exact removeURLsAux_nil f
  | cons c t ih =>
    intro hi f hf
    have hf' : t.length + 1 ≤ f := by simpa using hf
    obtain ⟨g, rfl⟩ : ∃ g, f = g + 1 := ⟨f - 1, by omega⟩
    simp only [urlInert, Bool.and_eq_true, Option.isNone_iff_eq_none] at hi
    simp only [removeURLsAux, hi.1]
    rw [ih hi.2 g (by omega)]

theorem takeWhile_ws_append (v k : Str) :
    (v ++ ' ' :: k).takeWhile nonWS = v.takeWhile nonWS := by
  have hsp : nonWS ' ' = false := by decide
  induction v with
  | nil => simp [List.takeWhile_cons, hsp]
  | cons a v ih => simp [List.takeWhile_cons, ih]

theorem dropWhile_ws_append (v k : Str) :
    (v ++ ' ' :: k).dropWhile nonWS = v.dropWhile nonWS ++ ' ' :: k := by
  have hsp : nonWS ' ' = false := by decide
  induction v with
  | nil => simp [List.dropWhile_cons, hsp]
  | cons a v ih =>
    by_cases h : nonWS a = true
    · simp [List.dropWhile_cons, h, ih]
    · rw [Bool.not_eq_true] at h
      simp [List.dropWhile_cons, h]

theorem urlMatch_append_some {s r : Str} (k : Str) (h : urlMatch s = some r) :
    urlMatch (s ++ ' ' :: k) = some (r ++ ' ' :: k) := by
  unfold urlMatch at h ⊢
  split_ifs at h with h1 h2
  · obtain ⟨ht4, htw⟩ := h1
    have h5 := five_le_of_takeWhile htw
    have e1 : (s ++ ' ' :: k).take 4 = s.take 4 := List.take_append_of_le_length (by omega)
    have e2 : (s ++ ' ' :: k).drop 4 = s.drop 4 ++ ' ' :: k :=
      List.drop_append_of_le_length (by omega)
    have hc : (s ++ ' ' :: k).take 4 = ['h', 't', 't', 'p'] ∧
        ((s ++ ' ' :: k).drop 4).takeWhile nonWS ≠ [] := by
      refine ⟨by rw [e1]; exact ht4, ?_⟩
      rw [e2, takeWhile_ws_append]
      exact htw
    rw [if_pos hc, e2, dropWhile_ws_append]
    have hr := Option.some.inj h
    rw [hr]
  · obtain ⟨ht3, hd, htw⟩ := h2
    have h5 := five_le_of_takeWhile htw
    have e1 : (s ++ ' ' :: k).take 3 = s.take 3 := List.take_append_of_le_length (by omega)
    have e14 : (s ++ ' ' :: k).take 4 = s.take 4 := List.take_append_of_le_length (by omega)
    have e2 : (s ++ ' ' :: k).drop 4 = s.drop 4 ++ ' ' :: k :=
      List.drop_append_of_le_length (by omega)
    have e3 : (s ++ ' ' :: k)[3]? = s[3]? := List.getElem?_append_left (by omega)
    have hcn : ¬ ((s ++ ' ' :: k).take 4 = ['h', 't', 't', 'p'] ∧
        ((s ++ ' ' :: k).drop 4).takeWhile nonWS ≠ []) := by
      rintro ⟨hc1, hc2⟩
      rw [e14] at hc1
      rw [e2, takeWhile_ws_append] at hc2
      exact h1 ⟨hc1, hc2⟩
    have hc : (s ++ ' ' :: k).take 3 = ['w', 'w', 'w'] ∧ (s ++ ' ' :: k)[3]? ≠ some '\n' ∧
        ((s ++ ' ' :: k).drop 4).takeWhile nonWS ≠ [] := by
      refine ⟨by rw [e1]; exact ht3, by rw [e3]; exact hd, ?_⟩
      rw [e2, takeWhile_ws_append]
      exact htw
    rw [if_neg hcn, if_pos hc, e2, dropWhile_ws_append]
    have hr := Option.some.inj h
    rw [hr]

theorem ws_mem_take (s k : Str) (m : ℕ) (hlen : s.length < m) :
    ' ' ∈ (s ++ ' ' :: k).take m := by
  rw [List.take_append_eq_append_take]
  apply List.mem_append.mpr
  right
  obtain ⟨j, hj⟩ : ∃ j, m - s.length = j + 1 := ⟨m - s.length - 1, by omega⟩
  rw [hj, List.take_succ_cons]
  exact List.mem_cons_self ' ' _

theorem urlMatch_append_none {s : Str} (k : Str) (hw : ¬ ['w', 'w', 'w'] <:+ s)
    (h : urlMatch s = none) : urlMatch (s ++ ' ' :: k) = none := by
  unfold urlMatch at h
  split_ifs at h with h1 h2
  unfold urlMatch
  have hA : ¬ ((s ++ ' ' :: k).take 4 = ['h', 't', 't', 'p'] ∧
      ((s ++ ' ' :: k).drop 4).takeWhile nonWS ≠ []) := by
    rintro ⟨hc1, hc2⟩
    by_cases hlen : 4 ≤ s.length
    · rw [List.take_append_of_le_length hlen] at hc1
      rw [List.drop_append_of_le_length hlen, takeWhile_ws_append] at hc2
      exact h1 ⟨hc1, hc2⟩
    · have hsp := ws_mem_take s k 4 (by omega)
      rw [hc1] at hsp
      exact absurd hsp (by decide)
  have hB : ¬ ((s ++ ' ' :: k).take 3 = ['w', 'w', 'w'] ∧ (s ++ ' ' :: k)[3]? ≠ some '\n' ∧
      ((s ++ ' ' :: k).drop 4).takeWhile nonWS ≠ []) := by
    rintro ⟨hc1, hc2, hc3⟩
    by_cases hlen : 4 ≤ s.length
    · rw [List.take_append_of_le_length (by omega)] at hc1
      rw [List.getElem?_append_left (by omega)] at hc2
      rw [List.drop_append_of_le_length hlen, takeWhile_ws_append] at hc3
      exact h2 ⟨hc1, hc2, hc3⟩
    · by_cases h3 : s.length = 3
      · have hs3 : (s ++ ' ' :: k).take 3 = s := by
          rw [List.take_append_of_le_length (by omega)]
          rw [← h3, List.take_length]
        rw [hs3] at hc1
        apply hw
        rw [hc1]
      · have hsp := ws_mem_take s k 3 (by omega)
        rw [hc1] at hsp
        exact absurd hsp (by decide)
  rw [if_neg hA, if_neg hB]

theorem removeURLsAux_append_nil (k : Str) (hk : urlInert k = true) (f₁ f₂ : ℕ)
    (h1 : 1 + k.length ≤ f₁) :
    removeURLsAux f₁ (' ' :: k) = removeURLsAux f₂ ([] : Str) ++ ' ' :: k := by
  rw [removeURLsAux_nil]
  obtain ⟨g, rfl⟩ : ∃ g, f₁ = g + 1 := ⟨f₁ - 1, by omega⟩
  have hm : urlMatch (' ' :: k) = none := @urlMatch_append_none [] k (by decide) rfl
  simp only [removeURLsAux, hm, List.nil_append]
  rw [removeURLsAux_inert k hk g (by omega)]

theorem removeURLsAux_append (k : Str) (hk : urlInert k = true) :
    ∀ (n : ℕ) (s : Str) (f₁ f₂ : ℕ), s.length ≤ n →
      s.length + 1 + k.length ≤ f₁ → s.length ≤ f₂ → ¬ ['w', 'w', 'w'] <:+ s →
      removeURLsAux f₁ (s ++ ' ' :: k) = removeURLsAux f₂ s ++ ' ' :: k := by
  intro n
  induction n with
  | zero =>
    intro s f₁ f₂ hn h1 h2 hw
    have hs : s = [] := List.length_eq_zero.mp (Nat.le_zero.mp hn)
    subst hs
    exact removeURLsAux_append_nil k hk f₁ f₂ (by simpa using h1)
  | succ n ih =>
    intro s f₁ f₂ hn h1 h2 hw
    cases s with
    | nil => exact removeURLsAux_append_nil k hk f₁ f₂ (by simpa using h1)
    | cons c t =>
      have hn' : t.length + 1 ≤ n + 1 := by simpa using hn
      have h1' : t.length + 1 + 1 + k.length ≤ f₁ := by
        have := h1
        simp only [List.length_cons] at this
        omega
      have h2' : t.length + 1 ≤ f₂ := by simpa using h2
      obtain ⟨g₁, rfl⟩ : ∃ g, f₁ = g + 1 := ⟨f₁ - 1, by omega⟩
      obtain ⟨g₂, rfl⟩ : ∃ g, f₂ = g + 1 := ⟨f₂ - 1, by omega⟩
      cases hm : urlMatch (c :: t) with
      | some r =>
        have hm2 := urlMatch_append_some k hm
        simp only [removeURLsAux, hm, hm2]
        obtain ⟨hrl, hrs⟩ := urlMatch_some_facts hm
        have hrl' : r.length + 5 ≤ t.length + 1 := by simpa using hrl
        have hwr : ¬ ['w', 'w', 'w'] <:+ r := fun hc => hw (hc.trans hrs)
        exact ih r g₁ g₂ (by omega) (by omega) (by omega) hwr
      | none =>
        have hm2 := urlMatch_append_none k hw hm
        have hca : (c :: t) ++ ' ' :: k = c :: (t ++ ' ' :: k) := rfl
        rw [hca] at hm2 ⊢
        simp only [removeURLsAux, hm, hm2, List.cons_append]
        congr 1
        have hwt : ¬ ['w', 'w', 'w'] <:+ t := fun hc => hw (hc.trans (List.suffix_cons c t))
        exact ih t g₁ g₂ (by omega) (by omega) (by omega) hwt

theorem removeURLs_append (s k : Str) (hk : urlInert k = true)
    (hw : ¬ ['w', 'w', 'w'] <:+ s) :
    removeURLs (s ++ ' ' :: k) = removeURLs s ++ ' ' :: k := by
  unfold removeURLs
  exact removeURLsAux_append k hk s.length s (s ++ ' ' :: k).length s.length le_rfl
    (by simp; omega) le_rfl hw

theorem preprocess_append (text k : Str) (hk : urlInert k = true)
    (hkl : lowerStr k = k) (hw : ¬ ['w', 'w', 'w'] <:+ lowerStr text) :
    preprocess_text (text ++ ' ' :: k) = preprocess_text text ++ ' ' :: k := by
  unfold preprocess_text
  have h1 : lowerStr (text ++ ' ' :: k) = lowerStr text ++ ' ' :: k := by
    unfold lowerStr at hkl ⊢
    rw [List.map_append, List.map_cons, hkl]
    rfl
  rw [h1, removeURLs_append _ _ hk hw]

/-! ### Appending a token: tokenization and scores (for C9) -/

theorem splitAcc_word :
    ∀ (k : Str), k.all nonWS = true → ∀ cur : Str,
      splitAcc cur k = if cur.reverse ++ k = [] then [] else [cur.reverse ++ k] := by
  intro k
  induction k with
  | nil =>
    intro _ cur
    simp only [splitAcc, List.append_nil]
    by_cases h : cur = []
    · simp [h]
    · rw [if_neg h, if_neg (by simp [h])]
  | cons c t ih =>
    intro hknw cur
    simp only [List.all_cons, Bool.and_eq_true] at hknw
    obtain ⟨hc, ht⟩ := hknw
    have hwsc : isWS c = false := by
      revert hc
      simp [nonWS]
    simp only [splitAcc, hwsc, Bool.false_eq_true, if_false]
    rw [ih ht (c :: cur)]
    have he : (c :: cur).reverse ++ t = cur.reverse ++ c :: t := by simp
    rw [he]

theorem splitAcc_append_token (k : Str) (hk : k ≠ []) (hknw : k.all nonWS = true) :
    ∀ (s cur : Str), splitAcc cur (s ++ ' ' :: k) = splitAcc cur s ++ [k] := by
  have hsplit : splitAcc [] k = [k] := by
    rw [splitAcc_word k hknw []]
    simp [hk]
  have hw : isWS ' ' = true := by decide
  intro s
  induction s with
  | nil =>
    intro cur
    simp only [List.nil_append, splitAcc, hw, if_true]
    by_cases h : cur = []
    · rw [if_pos h, hsplit, h]
      simp [splitAcc]
    · rw [if_neg h, hsplit]
      simp [splitAcc, h]
  | cons a t ih =>
    intro cur
    by_cases ha : isWS a = true
    · by_cases h : cur = []
      · simp only [List.cons_append, splitAcc, ha, if_true, if_pos h]
        exact ih []
      · simp only [List.cons_append, splitAcc, ha, if_true, if_neg h, List.append_eq]
        rw [ih []]
    · have ha' : isWS a = false := by
        revert ha
        cases isWS a <;> simp
      simp only [List.cons_append, splitAcc, ha', Bool.false_eq_true, if_false]
      exact ih (a :: cur)

theorem splitWS_append_token (k : Str) (hk : k ≠ []) (hknw : k.all nonWS = true) (s : Str) :
    splitWS (s ++ ' ' :: k) = splitWS s ++ [k] :=
  splitAcc_append_token k hk hknw s []

theorem wordScoreFrom_append (kw : List Str) (t : Str) :
    ∀ (ws : List Str) (prev : Option Str),
      wordScoreFrom kw prev (ws ++ [t]) =
        wordScoreFrom kw prev ws + tokContrib kw (lastPrev prev ws) t := by
  intro ws
  induction ws with
  | nil =>
    intro prev
    simp [wordScoreFrom, lastPrev]
  | cons w ws ih =>
    intro prev
    simp only [List.cons_append, wordScoreFrom, lastPrev, List.append_eq]
    rw [ih (some w), add_assoc]

theorem lastPrev_some_eq :
    ∀ (ws : List Str) (w : Str), lastPrev (some w) ws = (w :: ws).getLast? := by
  intro ws
  induction ws with
  | nil => intro w; simp [lastPrev]
  | cons x xs ih =>
    intro w
    simp only [lastPrev]
    rw [ih x, List.getLast?_cons_cons]

theorem lastPrev_none_eq (ws : List Str) : lastPrev none ws = ws.getLast? := by
  cases ws with
  | nil => rfl
  | cons w t =>
    simp only [lastPrev]
    exact lastPrev_some_eq t w

theorem tokContrib_nonneg (kw : List Str) (prev : Option Str) (w : Str)
    (h : ∀ p, prev = some p → p ∉ negations) : 0 ≤ tokContrib kw prev w := by
  cases prev with
  | none =>
    simp only [tokContrib, Bool.false_eq_true, if_false]
    split_ifs <;> norm_num
  | some p =>
    have hp : p ∉ negations := h p rfl
    simp only [tokContrib, decide_eq_false hp, Bool.false_eq_true, if_false]
    split_ifs <;> norm_num

/-! ### Appending a token: emoji counts are unchanged (for C9) -/

theorem cons_pref_cons {a b : Char} {l m : Str} :
    (a :: l <+: b :: m) ↔ (a = b ∧ l <+: m) := by
  constructor
  · rintro ⟨t, ht⟩
    rw [List.cons_append] at ht
    injection ht with h1 h2
    exact ⟨h1, t, h2⟩
  · rintro ⟨rfl, t, ht⟩
    exact ⟨t, by rw [List.cons_append, ht]⟩

theorem pref_append_iff (app : Str) (happ : ∀ c ∈ app, c.toNat ≤ 127) :
    ∀ (pat v : Str), (∀ c ∈ pat, 127 < c.toNat) →
      ((pat <+: v ++ app) ↔ (pat <+: v)) := by
  intro pat
  induction pat with
  | nil => intro v _; simp
  | cons p pt ih =>
    intro v hpat
    cases v with
    | nil =>
      simp only [List.nil_append]
      constructor
      · intro hpre
        cases app with
        | nil => exact absurd hpre (by simp)
        | cons a t =>
          rw [cons_pref_cons] at hpre
          have h1 := hpat p (List.mem_cons_self p pt)
          have h2 := happ a (List.mem_cons_self a t)
          rw [hpre.1] at h1
          omega
      · intro hpre
        exact absurd hpre (by simp)
    | cons x xs =>
      rw [List.cons_append, cons_pref_cons, cons_pref_cons]
      constructor
      · rintro ⟨h1, h2⟩
        exact ⟨h1, (ih xs (fun c hc => hpat c (List.mem_cons_of_mem p hc))).mp h2⟩
      · rintro ⟨h1, h2⟩
        exact ⟨h1, (ih xs (fun c hc => hpat c (List.mem_cons_of_mem p hc))).mpr h2⟩

theorem countAux_zero_of_light (pat : Str) (hp : ∀ c ∈ pat, 127 < c.toNat) :
    ∀ (u : Str) (f : ℕ), (∀ c ∈ u, c.toNat ≤ 127) → countAux f u pat = 0 := by
  intro u
  induction u with
  | nil => intro f _; cases f <;> rfl
  | cons c t ih =>
    intro f hu
    cases f with
    | zero => rfl
    | succ g =>
      have hnp : ¬ (pat ≠ [] ∧ pat <+: (c :: t)) := by
        rintro ⟨hne, hpre⟩
        cases pat with
        | nil => exact hne rfl
        | cons p pt =>
          rw [cons_pref_cons] at hpre
          have h1 := hp p (List.mem_cons_self p pt)
          have h2 := hu c (List.mem_cons_self c t)
          rw [hpre.1] at h1
          omega
      simp only [countAux, if_neg hnp]
      exact ih g (fun x hx => hu x (List.mem_cons_of_mem c hx))

theorem countAux_append (pat app : Str) (hpat : pat ≠ [])
    (hp : ∀ c ∈ pat, 127 < c.toNat) (happ : ∀ c ∈ app, c.toNat ≤ 127) :
    ∀ (n : ℕ) (s : Str) (f₁ f₂ : ℕ), s.length ≤ n → (s ++ app).length ≤ f₁ →
      s.length ≤ f₂ → countAux f₁ (s ++ app) pat = countAux f₂ s pat := by
  intro n
  induction n with
  | zero =>
    intro s f₁ f₂ hn _ _
    have hs : s = [] := List.length_eq_zero.mp (Nat.le_zero.mp hn)
    subst hs
    rw [List.nil_append, countAux_zero_of_light pat hp app f₁ happ]
    cases f₂ <;> rfl
  | succ n ih =>
    intro s f₁ f₂ hn h1 h2
    cases s with
    | nil =>
      rw [List.nil_append, countAux_zero_of_light pat hp app f₁ happ]
      cases f₂ <;> rfl
    | cons c t =>
      have hn' : t.length + 1 ≤ n + 1 := by simpa using hn
      have h1' : t.length + 1 + app.length ≤ f₁ := by
        have := h1
        simp only [List.length_append, List.length_cons] at this
        omega
      have h2' : t.length + 1 ≤ f₂ := by simpa using h2
      obtain ⟨g₁, rfl⟩ : ∃ g, f₁ = g + 1 := ⟨f₁ - 1, by omega⟩
      obtain ⟨g₂, rfl⟩ : ∃ g, f₂ = g + 1 := ⟨f₂ - 1, by omega⟩
      have hiff : (pat <+: c :: (t ++ app)) ↔ (pat <+: c :: t) :=
        pref_append_iff app happ pat (c :: t) hp
      have hgoal : (c :: t) ++ app = c :: (t ++ app) := rfl
      rw [hgoal]
      by_cases hpre : pat <+: c :: t
      · have hplen : pat.length ≤ t.length + 1 := by simpa using hpre.length_le
        simp only [countAux, if_pos (And.intro hpat (hiff.mpr hpre)),
          if_pos (And.intro hpat hpre)]
        have e1 : (c :: (t ++ app)).drop pat.length = (c :: t).drop pat.length ++ app := by
          rw [← hgoal]
          exact List.drop_append_of_le_length (by simpa using hplen)
        rw [e1]
        have hdlen : ((c :: t).drop pat.length).length = t.length + 1 - pat.length := by simp
        have hplen1 : 1 ≤ pat.length := List.length_pos.mpr hpat
        congr 1
        refine ih ((c :: t).drop pat.length) g₁ g₂ ?_ ?_ ?_
        · rw [hdlen]; omega
        · rw [List.length_append, hdlen]; omega
        · rw [hdlen]; omega
      · simp only [countAux,
          if_neg (fun hc : pat ≠ [] ∧ pat <+: c :: (t ++ app) => hpre (hiff.mp hc.2)),
          if_neg (fun hc : pat ≠ [] ∧ pat <+: c :: t => hpre hc.2)]
        exact ih t g₁ g₂ (by omega) (by simp only [List.length_append]; omega) (by omega)

theorem countOcc_append (s app pat : Str) (hpat : pat ≠ [])
    (hp : ∀ c ∈ pat, 127 < c.toNat) (happ : ∀ c ∈ app, c.toNat ≤ 127) :
    countOcc (s ++ app) pat = countOcc s pat := by
  unfold countOcc
  exact countAux_append pat app hpat hp happ s.length s (s ++ app).length s.length
    le_rfl le_rfl le_rfl

theorem emoji_chars (e : Emotion) :
    ∀ p ∈ emotion_emojis e, p ≠ [] ∧ ∀ c ∈ p, 127 < c.toNat := by
  cases e <;> decide

theorem detect_emojis_append (text app : Str) (e : Emotion)
    (happ : ∀ c ∈ app, c.toNat ≤ 127) :
    detect_emojis (text ++ app) e = detect_emojis text e := by
  unfold detect_emojis
  congr 1
  apply List.map_congr_left
  intro p hp
  obtain ⟨hne, hheavy⟩ := emoji_chars e p hp
  exact countOcc_append text app p hne hheavy happ

theorem lastPrev_append_single :
    ∀ (ws : List Str) (prev : Option Str) (t : Str), lastPrev prev (ws ++ [t]) = some t := by
  intro ws
  induction ws with
  | nil => intro prev t; rfl
  | cons w ws ih =>
    intro prev t
    simp only [List.cons_append, lastPrev]
    exact ih (some w) t

theorem kw_facts (E : Emotion) :
    ∀ k ∈ emotion_keywords E, urlInert k = true ∧ lowerStr k = k ∧ k ≠ [] ∧
      (∀ c ∈ k, c.toNat ≤ 127) ∧ (k.all nonWS = true ∨ k = "fed up".toList) := by
  cases E <;> decide

/-- C9 counterexample: monotonicity as claimed fails.  For the text
`"not happywww"` (whose last token `"happywww"` is not a negation word) and
the happy keyword `"happy"`, appending `" happy"` lets the `www.\S+` regex
branch match across the boundary (the unescaped dot matches the separator
space), turning the preprocessed text into `"not happy"`: the appended
keyword lands right after `"not"` and the happy score drops from 0 to
-0.5. -/
theorem C9_monotonic_counterexample :
    (splitWS (preprocess_text "not happywww".toList)).getLast? = some "happywww".toList ∧
    "happywww".toList ∉ negations ∧
    "happy".toList ∈ emotion_keywords Emotion.happy ∧
    (calculate_emotion_scores ("not happywww".toList ++ ' ' :: "happy".toList)).get
        Emotion.happy <
      (calculate_emotion_scores "not happywww".toList).get Emotion.happy :=
  ⟨by decide, by decide, by decide, by with_unfolding_all decide⟩

/-- C9 (amended): for every text whose lowercased form does not end with
`"www"` (ruling out the boundary-crossing `www.\S+` regex match) and whose
last preprocessed token is not a negation word, extending the text with a
whitespace separator and one additional occurrence of any keyword of emotion
`E` never decreases `E`'s accumulated score. -/
theorem C9_amended_monotonic (text k : Str) (E : Emotion) (hk : k ∈ emotion_keywords E)
    (hw3 : ¬ ['w', 'w', 'w'] <:+ lowerStr text)
    (hlast : ∀ w, (splitWS (preprocess_text text)).getLast? = some w → w ∉ negations) :
    (calculate_emotion_scores text).get E ≤
      (calculate_emotion_scores (text ++ ' ' :: k)).get E := by
  obtain ⟨hinert, hlow, hne, hascii, hsplit⟩ := kw_facts E k hk
  have happ : ∀ c ∈ (' ' :: k), c.toNat ≤ 127 := by
    intro c hc
    rcases List.mem_cons.mp hc with hc | hc
    · rw [hc]; decide
    · exact hascii c hc
  have hemoji : detect_emojis (text ++ ' ' :: k) E = detect_emojis text E :=
    detect_emojis_append text (' ' :: k) E happ
  have hpre : preprocess_text (text ++ ' ' :: k) = preprocess_text text ++ ' ' :: k :=
    preprocess_append text k hinert hlow hw3
  rw [calculate_emotion_scores, calc_get, calc_get, hemoji, hpre]
  apply add_le_add_left
  have hng : ∀ p, lastPrev none (splitWS (preprocess_text text)) = some p →
      p ∉ negations := by
    intro p hp
    rw [lastPrev_none_eq] at hp
    exact hlast p hp
  rcases hsplit with hnw | hfed
  · rw [splitWS_append_token k hne hnw, wordScore, wordScore, wordScoreFrom_append]
    exact le_add_of_nonneg_right (tokContrib_nonneg _ _ _ hng)
  · subst hfed
    have hdec : (' ' :: "fed up".toList : Str) =
        (' ' :: "fed".toList) ++ (' ' :: "up".toList) := by decide
    rw [hdec, ← List.append_assoc]
    rw [splitWS_append_token "up".toList (by decide) (by decide)]
    rw [splitWS_append_token "fed".toList (by decide) (by decide)]
    rw [wordScore, wordScore, wordScoreFrom_append, wordScoreFrom_append]
    have h1 : 0 ≤ tokContrib (emotion_keywords E)
        (lastPrev none (splitWS (preprocess_text text))) "fed".toList :=
      tokContrib_nonneg _ _ _ hng
    have h2 : 0 ≤ tokContrib (emotion_keywords E)
        (lastPrev none (splitWS (preprocess_text text) ++ ["fed".toList])) "up".toList := by
      apply tokContrib_nonneg
      intro p hp
      rw [lastPrev_append_single] at hp
      have hp' := Option.some.inj hp
      rw [← hp']
      decide
    linarith

theorem C9_amended_monotonic_witness :
    (calculate_emotion_scores "happy".toList).get Emotion.happy ≤
      (calculate_emotion_scores ("happy".toList ++ ' ' :: "happy".toList)).get
        Emotion.happy :=
  C9_amended_monotonic "happy".toList "happy".toList Emotion.happy (by decide) (by decide)
    (fun w hw => by
      have h1 : (splitWS (preprocess_text "happy".toList)).getLast? =
          some "happy".toList := by decide
      rw [h1] at hw
      have h2 := Option.some.inj hw
      rw [← h2]
      decide)
